import Mathlib

/-!
# Verification of the Base-Converter core (src/src/app.rs)

A shallow embedding of the base-converter program: the `Base` numeral codec
(`Base::to_num`, `Base::from`) and the `App` session state with its command
dispatch (`App::execute`, `App::change_base`).  Strings are modelled as
`List Char`; `u64` values as `Nat` with explicit `2 ^ 64` bounds; fallible
operations return `Option`/`Except`.
-/

/-- Convenience: the character list of a string literal. -/
def toL (s : String) : List Char := s.toList

/-- The constant `2 ^ 64`, the number of values of Rust's `u64`. -/
def U64 : Nat := 2 ^ 64

/-- Rust `char::is_whitespace`: the Unicode `White_Space` code points. -/
def isRustWS (c : Char) : Bool :=
  decide ((9 ≤ c.toNat ∧ c.toNat ≤ 13) ∨ c.toNat = 32 ∨ c.toNat = 133 ∨ c.toNat = 160 ∨
    c.toNat = 5760 ∨ (8192 ≤ c.toNat ∧ c.toNat ≤ 8202) ∨ c.toNat = 8232 ∨
    c.toNat = 8233 ∨ c.toNat = 8239 ∨ c.toNat = 8287 ∨ c.toNat = 12288)

/-- Rust `u8::is_ascii_whitespace` (space, tab, newline, carriage return, form feed),
used by `str::split_ascii_whitespace`. -/
def isASCIIWS (c : Char) : Bool :=
  decide (c.toNat = 32 ∨ c.toNat = 9 ∨ c.toNat = 10 ∨ c.toNat = 13 ∨ c.toNat = 12)

/-- Rust `str::trim`: drop Unicode whitespace from both ends. -/
def trimList (s : List Char) : List Char :=
  ((s.dropWhile isRustWS).reverse.dropWhile isRustWS).reverse

/-- Rust `str::strip_suffix('u')` composed with `unwrap_or`: drop one final `u`
if present, else return the input unchanged. -/
def stripSuffixU (s : List Char) : List Char :=
  if s.getLast? = some 'u' then s.dropLast else s

/-- Rust `str::strip_prefix(p)`: `some` of the rest if `p` is a leading
sequence of the input, else `none`. -/
def stripPrefixStr : List Char → List Char → Option (List Char)
  | [], s => some s
  | _ :: _, [] => none
  | p :: ps, c :: cs => if p = c then stripPrefixStr ps cs else none

/-- Rust ASCII lowercasing (the ASCII fragment of `str::to_lowercase`; the
program only ever distinguishes ASCII characters, and no non-ASCII letter
lowercases to an ASCII digit, so digit parsing is unaffected). -/
def lowerChar (c : Char) : Char :=
  if 65 ≤ c.toNat ∧ c.toNat ≤ 90 then Char.ofNat (c.toNat + 32) else c

/-- Rust `char::to_digit(radix)`: map `0-9`, `a-z`, `A-Z` to their values and
accept the result only when it is below the radix. -/
def charToDigit (radix : Nat) (c : Char) : Option Nat :=
  if 48 ≤ c.toNat ∧ c.toNat ≤ 57 ∧ c.toNat - 48 < radix then some (c.toNat - 48)
  else if 97 ≤ c.toNat ∧ c.toNat ≤ 122 ∧ c.toNat - 97 + 10 < radix then
    some (c.toNat - 97 + 10)
  else if 65 ≤ c.toNat ∧ c.toNat ≤ 90 ∧ c.toNat - 65 + 10 < radix then
    some (c.toNat - 65 + 10)
  else none

/-- The digit-accumulation loop of Rust `u64::from_str_radix`: multiply by the
radix and add each digit with a `u64` overflow check. -/
def parseDigitsChecked (radix : Nat) : List Char → Nat → Option Nat
  | [], acc => some acc
  | c :: cs, acc =>
    match charToDigit radix c with
    | none => none
    | some d =>
      if acc * radix + d < U64 then parseDigitsChecked radix cs (acc * radix + d)
      else none

/-- Rust `u64::from_str_radix`: empty input errors; a leading `+` is accepted
when digits follow; a leading `-` errors for the unsigned type; digits are
accumulated with an overflow check. -/
def fromStrRadix (radix : Nat) (s : List Char) : Option Nat :=
  match s with
  | [] => none
  | c :: rest =>
    if c = '+' then
      if rest = [] then none else parseDigitsChecked radix rest 0
    else if c = '-' then none
    else parseDigitsChecked radix (c :: rest) 0

/-- The enum `Base` of src/src/app.rs. -/
inductive Base where
  | Bin : Base
  | Dec : Base
  | Hex : Base
deriving DecidableEq, Repr

/-- Model of `Base::to_num` (src/src/app.rs lines 46-74): strip one trailing `u`; then
per base: Bin trims, lowercases, removes underscores, strips an optional `0b`
and parses radix 2; Dec parses radix 10 directly; Hex trims, lowercases,
strips an optional `0x` and parses radix 16.  `Ok v` is `some v`. -/
def Base.to_num (b : Base) (input : List Char) : Option Nat :=
  let input := stripSuffixU input
  match b with
  | .Bin =>
    let input := ((trimList input).map lowerChar).filter (fun c => c ≠ '_')
    match stripPrefixStr (toL "0b") input with
    | some rest => fromStrRadix 2 rest
    | none => fromStrRadix 2 input
  | .Dec => fromStrRadix 10 input
  | .Hex =>
    let input := (trimList input).map lowerChar
    match stripPrefixStr (toL "0x") input with
    | some rest => fromStrRadix 16 rest
    | none => fromStrRadix 16 input

/-- The digit character for a value below 16, as produced by Rust's `{:b}`,
`{}` and `{:x}` formatting (lower-case letters). -/
def digitChar (d : Nat) : Char :=
  if d < 10 then Char.ofNat (48 + d) else Char.ofNat (97 + (d - 10))

/-- Digit expansion used by Rust's numeric formatting, most-significant digit
first, empty for zero.  Structural recursion on a fuel argument so that the
kernel can evaluate it; `natDigitsAux radix n n` is exact for `radix ≥ 2`. -/
def natDigitsAux (radix : Nat) : Nat → Nat → List Char
  | _, 0 => []
  | n, fuel + 1 =>
    if n = 0 then []
    else natDigitsAux radix (n / radix) fuel ++ [digitChar (n % radix)]

/-- Digit string of `n`, most-significant first, empty for zero. -/
def natDigits (radix n : Nat) : List Char :=
  natDigitsAux radix n n

/-- Minimal digit string of `n` in the given radix, `"0"` for zero — the
output of Rust `format!` with `{:b}`, `{}` or `{:x}`. -/
def natToDigits (radix n : Nat) : List Char :=
  if n = 0 then ['0'] else natDigits radix n

/-- Rust `format!("{:04b}", g)` for a nibble `g`: left-pad the binary digits
with `'0'` to width 4. -/
def pad4 (g : List Char) : List Char :=
  List.replicate (4 - g.length) '0' ++ g

/-- The nibble loop of `Base::from` for binary (least-significant group
first): while `num > 0`, push `format!("{:04b}", num & 0b1111)` and shift
`num` right by 4.  Fuel-structural; `binGroupsAux num num` is exact. -/
def binGroupsAux : Nat → Nat → List (List Char)
  | _, 0 => []
  | num, fuel + 1 =>
    if num = 0 then []
    else pad4 (natToDigits 2 (num % 16)) :: binGroupsAux (num / 16) fuel

/-- The list of 4-bit groups of `num`, least significant first. -/
def binGroupsLE (num : Nat) : List (List Char) :=
  binGroupsAux num num

/-- Rust `Vec::join("_")` on character lists. -/
def joinSep : List (List Char) → List Char
  | [] => []
  | [g] => g
  | g :: g2 :: gs => g ++ '_' :: joinSep (g2 :: gs)

/-- Model of `Base::from` (src/src/app.rs lines 83-101): Hex is `format!("0x{:x}")`,
Dec is `format!("{}")`, Bin is the plain `{:b}` digits below 16 and otherwise
the reversed nibble groups joined with underscores.  (The source names this
method `from`, a reserved word in Lean.) -/
def Base.fromNum (b : Base) (num : Nat) : List Char :=
  match b with
  | .Hex => '0' :: 'x' :: natToDigits 16 num
  | .Dec => natToDigits 10 num
  | .Bin =>
    if num < 16 then natToDigits 2 num
    else joinSep (binGroupsLE num).reverse

instance (ε α : Type) [DecidableEq ε] [DecidableEq α] : DecidableEq (Except ε α) := fun x y =>
  match x, y with
  | .error a, .error b =>
    if h : a = b then .isTrue (congrArg Except.error h)
    else .isFalse (fun e => h (Except.error.inj e))
  | .ok a, .ok b =>
    if h : a = b then .isTrue (congrArg Except.ok h)
    else .isFalse (fun e => h (Except.ok.inj e))
  | .error _, .ok _ => .isFalse (fun e => Except.noConfusion e)
  | .ok _, .error _ => .isFalse (fun e => Except.noConfusion e)

/-- The struct `App` of src/src/app.rs: current input and output bases. -/
structure App where
  in_base : Base
  out_base : Base
deriving DecidableEq, Repr

/-- Model of `App::new`: input base Hex, output base Bin. -/
def App.new : App :=
  { in_base := .Hex, out_base := .Bin }

/-- Rust `str::split_ascii_whitespace`: maximal runs of non-whitespace
characters, so no empty tokens. -/
def splitWS (s : List Char) : List (List Char) :=
  (s.splitOnP isASCIIWS).filter (fun t => t ≠ [])

/-- Model of `App::change_base` (src/src/app.rs lines 172-200): `from` sets the input
base, `to` the output base; an unknown base name or selector is an error and
leaves the state unchanged.  `&mut self` is modelled by returning the state
next to the `Result`. -/
def App.change_base (app : App) (cmd arg : List Char) :
    App × Except (List Char) Unit :=
  if cmd = toL "from" then
    if arg = toL "hex" then ({ app with in_base := .Hex }, .ok ())
    else if arg = toL "dec" then ({ app with in_base := .Dec }, .ok ())
    else if arg = toL "bin" then ({ app with in_base := .Bin }, .ok ())
    else (app, .error (toL "No type " ++ arg))
  else if cmd = toL "to" then
    if arg = toL "hex" then ({ app with out_base := .Hex }, .ok ())
    else if arg = toL "dec" then ({ app with out_base := .Dec }, .ok ())
    else if arg = toL "bin" then ({ app with out_base := .Bin }, .ok ())
    else (app, .error (toL "No type " ++ arg))
  else (app, .error (toL "Error: wrong command format"))

/-- Model of `App::execute` (src/src/app.rs lines 149-169): strip the `:` sentinel
(else error), trim, handle `h`/`help`, split on ASCII whitespace, require 2
or 4 tokens, and apply the base-change(s) in order, propagating the first
error (the `?` operator keeps the mutations already applied). -/
def App.execute (app : App) (cmd : List Char) : App × Except (List Char) Unit :=
  match stripPrefixStr (toL ":") cmd with
  | none => (app, .error (toL "Error: wrong command format"))
  | some rest =>
    let c := trimList rest
    if c = toL "h" ∨ c = toL "help" then (app, .ok ())
    else
      let words := splitWS c
      if ¬(words.length = 2 ∨ words.length = 4) then
        (app, .error (toL "Error: wrong command format"))
      else
        let r1 := app.change_base (words.getD 0 []) (words.getD 1 [])
        match r1.2 with
        | .error e => (r1.1, .error e)
        | .ok _ =>
          if words.length = 4 then
            r1.1.change_base (words.getD 2 []) (words.getD 3 [])
          else (r1.1, .ok ())

/-- Model of `App::convert` (src/src/app.rs lines 135-138): parse with the input base,
format with the output base. -/
def App.convert (app : App) (input : List Char) : Option (List Char) :=
  match app.in_base.to_num input with
  | some num => some (app.out_base.fromNum num)
  | none => none

/-- Model of `App::is_command`: the line starts with the `:` sentinel. -/
def App.is_command (_app : App) (cmd : List Char) : Bool :=
  (stripPrefixStr (toL ":") cmd).isSome

/-- Spec-side, for the binary-format claim: a single binary digit character. -/
def bitc (b : Nat) : Char :=
  if b = 1 then '1' else '0'

/-- Spec-side: a nibble value rendered as a zero-padded 4-digit binary
string, bit 3 first. -/
def specNibble (m : Nat) : List Char :=
  [bitc (m / 8 % 2), bitc (m / 4 % 2), bitc (m / 2 % 2), bitc (m % 2)]

/-- Spec-side binary formatter, written from the spec's words: below 16 the
plain binary digits with no padding (`"0"` for zero); from 16 on, the 4-bit
groups of the value from the least-significant end (`Nat.digits 16`), each
rendered as a zero-padded 4-digit binary string, joined most-significant
first with underscore separators. -/
def specBinFormat (v : Nat) : List Char :=
  if v < 16 then
    if v = 0 then ['0'] else ((Nat.digits 2 v).map bitc).reverse
  else joinSep ((Nat.digits 16 v).map specNibble).reverse

/-- Value of a digit string under left-to-right accumulation (the value
`from_str_radix` computes when no check fires); non-digits count as 0. -/
def valFrom (radix : Nat) (cs : List Char) (acc : Nat) : Nat :=
  cs.foldl (fun a c => a * radix + ((charToDigit radix c).getD 0)) acc

example : Base.to_num .Bin (toL "0b10") = some 2 := by decide
example : Base.to_num .Bin (toL "0001_0000") = some 16 := by decide
example : Base.to_num .Hex (toL "0xff") = some 255 := by decide
example : Base.to_num .Hex (toL "0XFF") = some 255 := by decide
example : Base.to_num .Dec (toL "101") = some 101 := by decide
example : Base.to_num .Dec (toL "-012") = none := by decide
example : Base.to_num .Dec (toL "0d012") = none := by decide
example : Base.to_num .Bin (toL "0b12") = none := by decide
example : Base.fromNum .Bin 4 = toL "100" := by decide
example : Base.fromNum .Bin 16 = toL "0001_0000" := by decide
example : Base.fromNum .Bin 2701 = toL "1010_1000_1101" := by decide
example : Base.fromNum .Hex 255 = toL "0xff" := by decide
example : Base.to_num .Hex (toL "0xffffffffffffffff") = some (2 ^ 64 - 1) := by decide
example : Base.to_num .Dec (toL "18446744073709551616") = none := by decide
example : App.execute App.new (toL ":from hex to dec") =
    ({ in_base := .Hex, out_base := .Dec }, .ok ()) := by decide
example : App.execute App.new (toL ":from hex to dec.") =
    ({ in_base := .Hex, out_base := .Bin }, .error (toL "No type dec.")) := by decide
example : App.execute App.new (toL ":from hex to dex") =
    ({ in_base := .Hex, out_base := .Bin }, .error (toL "No type dex")) := by decide
example : App.execute App.new (toL ":fro hex") =
    ({ in_base := .Hex, out_base := .Bin }, .error (toL "Error: wrong command format")) := by
  decide
example : App.execute App.new (toL ":h") = (App.new, .ok ()) := by decide
example : App.execute App.new (toL "from hex to dec") =
    (App.new, .error (toL "Error: wrong command format")) := by decide
example : App.execute App.new (toL ":  from bin   to     hex  ") =
    ({ in_base := .Bin, out_base := .Hex }, .ok ()) := by decide

/-! ## Character-level facts -/

theorem charToDigit_digitChar : ∀ r < 17, ∀ d < r, charToDigit r (digitChar d) = some d := by
  decide

theorem digitChar_props : ∀ d < 16,
    isRustWS (digitChar d) = false ∧ digitChar d ≠ '+' ∧ digitChar d ≠ '-' ∧
    digitChar d ≠ 'u' ∧ digitChar d ≠ '_' ∧ digitChar d ≠ 'x' ∧
    lowerChar (digitChar d) = digitChar d := by
  decide

theorem digitChar_bin : ∀ d < 2, digitChar d = '0' ∨ digitChar d = '1' := by
  decide

/-! ## String-helper facts -/

theorem dropWhile_eq_self_of_forall {α : Type} (p : α → Bool) (l : List α)
    (h : ∀ c ∈ l, p c = false) : l.dropWhile p = l := by
  cases l with
  | nil => rfl
  | cons c cs => simp [List.dropWhile, h c (List.mem_cons_self c cs)]

theorem trimList_eq_self (s : List Char) (h : ∀ c ∈ s, isRustWS c = false) :
    trimList s = s := by
  unfold trimList
  rw [dropWhile_eq_self_of_forall _ s h,
    dropWhile_eq_self_of_forall _ s.reverse (by simpa using h), List.reverse_reverse]

theorem mem_of_getLast?_eq {α : Type} (l : List α) (a : α) (h : l.getLast? = some a) :
    a ∈ l := by
  induction l with
  | nil => simp [List.getLast?] at h
  | cons c cs ih =>
    cases cs with
    | nil =>
      simp [List.getLast?] at h
      simp [h]
    | cons d ds =>
      rw [List.getLast?_cons_cons] at h
      exact List.mem_cons_of_mem _ (ih h)

theorem stripSuffixU_eq_self (s : List Char) (h : 'u' ∉ s) : stripSuffixU s = s := by
  unfold stripSuffixU
  rw [if_neg]
  intro hl
  exact h (mem_of_getLast?_eq s _ hl)

theorem map_lowerChar_eq_self (s : List Char) (h : ∀ c ∈ s, lowerChar c = c) :
    s.map lowerChar = s := by
  rw [List.map_congr_left h]
  simp

/-! ## `valFrom` facts -/

theorem valFrom_nil (radix acc : Nat) : valFrom radix [] acc = acc := rfl

theorem valFrom_cons (radix acc : Nat) (c : Char) (cs : List Char) :
    valFrom radix (c :: cs) acc =
      valFrom radix cs (acc * radix + ((charToDigit radix c).getD 0)) := rfl

theorem valFrom_append (radix acc : Nat) (xs ys : List Char) :
    valFrom radix (xs ++ ys) acc = valFrom radix ys (valFrom radix xs acc) := by
  unfold valFrom
  rw [List.foldl_append]

theorem le_valFrom (radix : Nat) (hr : 1 ≤ radix) (cs : List Char) :
    ∀ acc, acc ≤ valFrom radix cs acc := by
  induction cs with
  | nil => intro acc; simp [valFrom_nil]
  | cons c cs ih =>
    intro acc
    rw [valFrom_cons]
    calc acc ≤ acc * radix + ((charToDigit radix c).getD 0) := by
          have : acc * 1 ≤ acc * radix := Nat.mul_le_mul_left acc hr
          omega
      _ ≤ _ := ih _

theorem valFrom_shift (radix : Nat) (cs : List Char) :
    ∀ acc, valFrom radix cs acc = acc * radix ^ cs.length + valFrom radix cs 0 := by
  induction cs with
  | nil => intro acc; simp [valFrom_nil]
  | cons c cs ih =>
    intro acc
    rw [valFrom_cons, valFrom_cons, ih, ih (0 * radix + _), List.length_cons]
    ring

/-! ## `parseDigitsChecked` and `fromStrRadix` facts -/

theorem parseDigitsChecked_ok (radix : Nat) (cs : List Char) :
    ∀ acc, 1 ≤ radix → (∀ c ∈ cs, (charToDigit radix c).isSome) →
    valFrom radix cs acc < U64 →
    parseDigitsChecked radix cs acc = some (valFrom radix cs acc) := by
  induction cs with
  | nil => intro acc _ _ _; rfl
  | cons c cs ih =>
    intro acc hr hd hv
    have hc : (charToDigit radix c).isSome := hd c (List.mem_cons_self c cs)
    obtain ⟨d, hd'⟩ := Option.isSome_iff_exists.mp hc
    rw [valFrom_cons] at hv ⊢
    rw [hd'] at hv ⊢
    have hlt : acc * radix + d < U64 :=
      Nat.lt_of_le_of_lt (le_valFrom radix hr cs _) hv
    simp only [parseDigitsChecked, hd', Option.getD_some, if_pos hlt]
    exact ih _ hr (fun x hx => hd x (List.mem_cons_of_mem _ hx)) hv

theorem parseDigitsChecked_sound (radix : Nat) (cs : List Char) :
    ∀ acc v, acc < U64 → parseDigitsChecked radix cs acc = some v →
    v = valFrom radix cs acc ∧ v < U64 ∧ ∀ c ∈ cs, (charToDigit radix c).isSome := by
  induction cs with
  | nil =>
    intro acc v ha h
    simp [parseDigitsChecked] at h
    subst h
    exact ⟨rfl, ha, by simp⟩
  | cons c cs ih =>
    intro acc v ha h
    cases hc : charToDigit radix c with
    | none =>
      simp only [parseDigitsChecked, hc] at h
      exact absurd h (by simp)
    | some d =>
      simp only [parseDigitsChecked, hc] at h
      by_cases hlt : acc * radix + d < U64
      · rw [if_pos hlt] at h
        obtain ⟨h1, h2, h3⟩ := ih _ v hlt h
        refine ⟨?_, h2, ?_⟩
        · rw [valFrom_cons, hc]; exact h1
        · intro x hx
          rcases List.mem_cons.mp hx with hx | hx
          · subst hx; simp [hc]
          · exact h3 x hx
      · rw [if_neg hlt] at h; exact absurd h (by simp)

theorem charToDigit_plus (r : Nat) : charToDigit r '+' = none := rfl

theorem charToDigit_minus (r : Nat) : charToDigit r '-' = none := rfl

theorem fromStrRadix_digits (radix : Nat) (hr : 1 ≤ radix) (cs : List Char)
    (hne : cs ≠ []) (hd : ∀ c ∈ cs, (charToDigit radix c).isSome)
    (hv : valFrom radix cs 0 < U64) :
    fromStrRadix radix cs = some (valFrom radix cs 0) := by
  cases cs with
  | nil => exact absurd rfl hne
  | cons c rest =>
    have hc := hd c (List.mem_cons_self c rest)
    have hplus : c ≠ '+' := by
      intro e; rw [e, charToDigit_plus] at hc; exact absurd hc (by simp)
    have hminus : c ≠ '-' := by
      intro e; rw [e, charToDigit_minus] at hc; exact absurd hc (by simp)
    simp only [fromStrRadix, if_neg hplus, if_neg hminus]
    exact parseDigitsChecked_ok radix _ 0 hr hd hv

theorem fromStrRadix_sound (radix : Nat) (cs : List Char) (v : Nat)
    (h : fromStrRadix radix cs = some v) :
    ((∀ c ∈ cs, (charToDigit radix c).isSome) ∧ v = valFrom radix cs 0 ∧ v < U64) ∨
    (∃ r, cs = '+' :: r ∧ r ≠ [] ∧ (∀ c ∈ r, (charToDigit radix c).isSome) ∧
      v = valFrom radix r 0 ∧ v < U64) := by
  cases cs with
  | nil => exact absurd h (by simp [fromStrRadix])
  | cons c rest =>
    by_cases hp : c = '+'
    · subst hp
      simp only [fromStrRadix, if_pos rfl] at h
      by_cases hre : rest = []
      · rw [if_pos hre] at h; exact absurd h (by simp)
      · rw [if_neg hre] at h
        obtain ⟨h1, h2, h3⟩ :=
          parseDigitsChecked_sound radix rest 0 v (by simp [U64]) h
        exact Or.inr ⟨rest, rfl, hre, h3, h1, h2⟩
    · by_cases hm : c = '-'
      · subst hm
        simp [fromStrRadix] at h
      · simp only [fromStrRadix, if_neg hp, if_neg hm] at h
        obtain ⟨h1, h2, h3⟩ :=
          parseDigitsChecked_sound radix (c :: rest) 0 v (by simp [U64]) h
        exact Or.inl ⟨h3, h1, h2⟩

theorem fromStrRadix_overflow (radix : Nat) (cs : List Char)
    (hd : ∀ c ∈ cs, (charToDigit radix c).isSome) (hv : U64 ≤ valFrom radix cs 0) :
    fromStrRadix radix cs = none := by
  cases h : fromStrRadix radix cs with
  | none => rfl
  | some v =>
    rcases fromStrRadix_sound radix cs v h with ⟨_, h2, h3⟩ | ⟨r, he, _, _, _, _⟩
    · omega
    · subst he
      have := hd '+' (List.mem_cons_self _ _)
      rw [charToDigit_plus] at this
      exact absurd this (by simp)

/-! ## `natDigits` facts -/

theorem natDigitsAux_zero (radix : Nat) : ∀ fuel, natDigitsAux radix 0 fuel = [] := by
  intro fuel; cases fuel <;> rfl

theorem natDigitsAux_stable (radix : Nat) (hr : 2 ≤ radix) :
    ∀ f1 n f2, n ≤ f1 → n ≤ f2 → natDigitsAux radix n f1 = natDigitsAux radix n f2 := by
  intro f1
  induction f1 with
  | zero =>
    intro n f2 h1 _
    have : n = 0 := by omega
    subst this
    rw [natDigitsAux_zero, natDigitsAux_zero]
  | succ f ih =>
    intro n f2 h1 h2
    by_cases hn : n = 0
    · subst hn; rw [natDigitsAux_zero, natDigitsAux_zero]
    · cases f2 with
      | zero => omega
      | succ f2' =>
        have hlt : n / radix < n := Nat.div_lt_self (Nat.pos_of_ne_zero hn) hr
        simp only [natDigitsAux, if_neg hn]
        rw [ih (n / radix) f2' (by omega) (by omega)]

theorem natDigits_eq (radix : Nat) (hr : 2 ≤ radix) (n : Nat) :
    natDigits radix n =
      if n = 0 then [] else natDigits radix (n / radix) ++ [digitChar (n % radix)] := by
  by_cases hn : n = 0
  · subst hn; rw [if_pos rfl]; exact natDigitsAux_zero radix 0
  · rw [if_neg hn]
    cases n with
    | zero => exact absurd rfl hn
    | succ m =>
      have hlt : (m + 1) / radix < m + 1 := Nat.div_lt_self (by omega) hr
      show natDigitsAux radix (m + 1) (m + 1) = _
      simp only [natDigitsAux, if_neg hn]
      unfold natDigits
      rw [natDigitsAux_stable radix hr m ((m + 1) / radix) ((m + 1) / radix)
        (by omega) (by omega)]

theorem natDigits_mem (radix : Nat) (hr : 2 ≤ radix) :
    ∀ n, ∀ c ∈ natDigits radix n, ∃ d, d < radix ∧ c = digitChar d := by
  intro n
  induction n using Nat.strong_induction_on with
  | _ n ih =>
    intro c hc
    rw [natDigits_eq radix hr] at hc
    by_cases hn : n = 0
    · rw [if_pos hn] at hc; exact absurd hc (by simp)
    · rw [if_neg hn] at hc
      rcases List.mem_append.mp hc with h | h
      · exact ih (n / radix) (Nat.div_lt_self (Nat.pos_of_ne_zero hn) hr) c h
      · simp only [List.mem_singleton] at h
        exact ⟨n % radix, Nat.mod_lt n (by omega), h⟩

theorem natDigits_val (radix : Nat) (hr2 : 2 ≤ radix) (hr16 : radix ≤ 16) :
    ∀ n, valFrom radix (natDigits radix n) 0 = n := by
  intro n
  induction n using Nat.strong_induction_on with
  | _ n ih =>
    rw [natDigits_eq radix hr2]
    by_cases hn : n = 0
    · rw [if_pos hn, valFrom_nil]; omega
    · rw [if_neg hn, valFrom_append,
        ih (n / radix) (Nat.div_lt_self (Nat.pos_of_ne_zero hn) hr2),
        valFrom_cons, valFrom_nil,
        charToDigit_digitChar radix (by omega) (n % radix) (Nat.mod_lt n (by omega))]
      simp only [Option.getD_some]
      exact Nat.div_add_mod' n radix

theorem natDigits_ne_nil (radix n : Nat) (hr : 2 ≤ radix) (hn : n ≠ 0) :
    natDigits radix n ≠ [] := by
  rw [natDigits_eq radix hr, if_neg hn]
  simp

theorem natToDigits_mem (radix : Nat) (hr : 2 ≤ radix) (n : Nat) :
    ∀ c ∈ natToDigits radix n, ∃ d, d < radix ∧ c = digitChar d := by
  intro c hc
  unfold natToDigits at hc
  by_cases hn : n = 0
  · rw [if_pos hn] at hc
    simp only [List.mem_singleton] at hc
    exact ⟨0, by omega, by rw [hc]; decide⟩
  · rw [if_neg hn] at hc
    exact natDigits_mem radix hr n c hc

theorem natToDigits_ne_nil (radix n : Nat) (hr : 2 ≤ radix) : natToDigits radix n ≠ [] := by
  unfold natToDigits
  by_cases hn : n = 0
  · rw [if_pos hn]; simp
  · rw [if_neg hn]; exact natDigits_ne_nil radix n hr hn

theorem natToDigits_val (radix : Nat) (hr2 : 2 ≤ radix) (hr16 : radix ≤ 16) (n : Nat) :
    valFrom radix (natToDigits radix n) 0 = n := by
  unfold natToDigits
  by_cases hn : n = 0
  · rw [if_pos hn, hn]
    have h0 : ('0' : Char) = digitChar 0 := by decide
    rw [h0, valFrom_cons, valFrom_nil, charToDigit_digitChar radix (by omega) 0 (by omega)]
    simp
  · rw [if_neg hn]; exact natDigits_val radix hr2 hr16 n

/-! ## `joinSep` and `binGroups` facts -/

theorem joinSep_mem : ∀ (gs : List (List Char)) (c : Char),
    c ∈ joinSep gs → c = '_' ∨ ∃ g ∈ gs, c ∈ g := by
  intro gs
  induction gs with
  | nil => intro c hc; exact absurd hc (by simp [joinSep])
  | cons g rest ih =>
    intro c hc
    cases rest with
    | nil => exact Or.inr ⟨g, by simp, hc⟩
    | cons g2 gs2 =>
      rw [show joinSep (g :: g2 :: gs2) = g ++ '_' :: joinSep (g2 :: gs2) from rfl] at hc
      rcases List.mem_append.mp hc with h | h
      · exact Or.inr ⟨g, by simp, h⟩
      · rcases List.mem_cons.mp h with h | h
        · exact Or.inl h
        · rcases ih c h with h | ⟨g', hg', hc'⟩
          · exact Or.inl h
          · exact Or.inr ⟨g', List.mem_cons_of_mem _ hg', hc'⟩

theorem filter_ne_underscore_eq_self (g : List Char) (h : '_' ∉ g) :
    g.filter (fun c => c ≠ '_') = g := by
  rw [List.filter_eq_self]
  intro c hc
  simp only [ne_eq, decide_eq_true_eq]
  intro e
  exact h (e ▸ hc)

theorem joinSep_filter : ∀ (gs : List (List Char)), (∀ g ∈ gs, '_' ∉ g) →
    (joinSep gs).filter (fun c => c ≠ '_') = gs.flatten := by
  intro gs
  induction gs with
  | nil => intro _; rfl
  | cons g rest ih =>
    intro h
    cases rest with
    | nil =>
      show g.filter _ = ([g] : List (List Char)).flatten
      rw [filter_ne_underscore_eq_self g (h g (by simp))]
      simp
    | cons g2 gs2 =>
      rw [show joinSep (g :: g2 :: gs2) = g ++ '_' :: joinSep (g2 :: gs2) from rfl,
        List.filter_append, List.filter_cons,
        filter_ne_underscore_eq_self g (h g (by simp)),
        ih (fun g' hg' => h g' (List.mem_cons_of_mem _ hg'))]
      simp [List.flatten_cons]

theorem binGroupsAux_zero : ∀ fuel, binGroupsAux 0 fuel = [] := by
  intro fuel; cases fuel <;> rfl

theorem binGroupsAux_stable :
    ∀ f1 n f2, n ≤ f1 → n ≤ f2 → binGroupsAux n f1 = binGroupsAux n f2 := by
  intro f1
  induction f1 with
  | zero =>
    intro n f2 h1 _
    have : n = 0 := by omega
    subst this
    rw [binGroupsAux_zero, binGroupsAux_zero]
  | succ f ih =>
    intro n f2 h1 h2
    by_cases hn : n = 0
    · subst hn; rw [binGroupsAux_zero, binGroupsAux_zero]
    · cases f2 with
      | zero => omega
      | succ f2' =>
        have hlt : n / 16 < n := Nat.div_lt_self (Nat.pos_of_ne_zero hn) (by omega)
        simp only [binGroupsAux, if_neg hn]
        rw [ih (n / 16) f2' (by omega) (by omega)]

theorem binGroupsLE_eq (n : Nat) :
    binGroupsLE n =
      if n = 0 then [] else pad4 (natToDigits 2 (n % 16)) :: binGroupsLE (n / 16) := by
  by_cases hn : n = 0
  · subst hn; rw [if_pos rfl]; exact binGroupsAux_zero 0
  · rw [if_neg hn]
    cases n with
    | zero => exact absurd rfl hn
    | succ m =>
      have hlt : (m + 1) / 16 < m + 1 := Nat.div_lt_self (by omega) (by omega)
      show binGroupsAux (m + 1) (m + 1) = _
      simp only [binGroupsAux, if_neg hn]
      unfold binGroupsLE
      rw [binGroupsAux_stable m ((m + 1) / 16) ((m + 1) / 16) (by omega) (by omega)]

theorem nibble_facts : ∀ m < 16,
    (∀ c ∈ pad4 (natToDigits 2 m), c = '0' ∨ c = '1') ∧
    (pad4 (natToDigits 2 m)).length = 4 ∧
    valFrom 2 (pad4 (natToDigits 2 m)) 0 = m := by
  decide

theorem binGroups_mem : ∀ v, ∀ g ∈ binGroupsLE v, ∀ c ∈ g, c = '0' ∨ c = '1' := by
  intro v
  induction v using Nat.strong_induction_on with
  | _ v ih =>
    intro g hg c hc
    rw [binGroupsLE_eq] at hg
    by_cases hv : v = 0
    · rw [if_pos hv] at hg; exact absurd hg (by simp)
    · rw [if_neg hv] at hg
      rcases List.mem_cons.mp hg with h | h
      · subst h
        exact (nibble_facts (v % 16) (Nat.mod_lt v (by omega))).1 c hc
      · exact ih (v / 16) (Nat.div_lt_self (Nat.pos_of_ne_zero hv) (by omega)) g h c hc

theorem binGroups_flatten_val : ∀ v, valFrom 2 (binGroupsLE v).reverse.flatten 0 = v := by
  intro v
  induction v using Nat.strong_induction_on with
  | _ v ih =>
    rw [binGroupsLE_eq]
    by_cases hv : v = 0
    · rw [if_pos hv]; rw [hv]; rfl
    · rw [if_neg hv, List.reverse_cons, List.flatten_append, valFrom_append,
        ih (v / 16) (Nat.div_lt_self (Nat.pos_of_ne_zero hv) (by omega))]
      obtain ⟨_, hlen, hval⟩ := nibble_facts (v % 16) (Nat.mod_lt v (by omega))
      rw [show ([pad4 (natToDigits 2 (v % 16))] : List (List Char)).flatten =
        pad4 (natToDigits 2 (v % 16)) by simp]
      rw [valFrom_shift, hlen, hval]
      have : (2 : Nat) ^ 4 = 16 := by norm_num
      rw [this]
      exact Nat.div_add_mod' v 16

theorem binGroups_flatten_ne_nil (v : Nat) (hv : v ≠ 0) :
    (binGroupsLE v).reverse.flatten ≠ [] := by
  rw [binGroupsLE_eq, if_neg hv, List.reverse_cons, List.flatten_append]
  obtain ⟨_, hlen, _⟩ := nibble_facts (v % 16) (Nat.mod_lt v (by omega))
  intro h
  rw [List.append_eq_nil] at h
  have := h.2
  rw [show ([pad4 (natToDigits 2 (v % 16))] : List (List Char)).flatten =
    pad4 (natToDigits 2 (v % 16)) by simp] at this
  rw [this] at hlen
  simp at hlen

/-! ## Digit-string plumbing -/

theorem digitChars_basic (radix : Nat) (hr : radix ≤ 16) (s : List Char)
    (h : ∀ c ∈ s, ∃ d, d < radix ∧ c = digitChar d) :
    'u' ∉ s ∧ (∀ c ∈ s, isRustWS c = false) ∧ (∀ c ∈ s, lowerChar c = c) := by
  refine ⟨?_, ?_, ?_⟩
  · intro hu
    obtain ⟨d, hd, he⟩ := h 'u' hu
    exact (digitChar_props d (by omega)).2.2.2.1 he.symm
  · intro c hc
    obtain ⟨d, hd, he⟩ := h c hc
    rw [he]
    exact (digitChar_props d (by omega)).1
  · intro c hc
    obtain ⟨d, hd, he⟩ := h c hc
    rw [he]
    exact (digitChar_props d (by omega)).2.2.2.2.2.2

theorem digitChars_isSome (radix : Nat) (hr : radix ≤ 16) (s : List Char)
    (h : ∀ c ∈ s, ∃ d, d < radix ∧ c = digitChar d) :
    ∀ c ∈ s, (charToDigit radix c).isSome := by
  intro c hc
  obtain ⟨d, hd, he⟩ := h c hc
  rw [he, charToDigit_digitChar radix (by omega) d hd]
  rfl

theorem stripPrefixStr_0b_none (cs : List Char) (h : ∀ c ∈ cs, c = '0' ∨ c = '1') :
    stripPrefixStr (toL "0b") cs = none := by
  rw [show toL "0b" = ['0', 'b'] from by decide]
  cases cs with
  | nil => rfl
  | cons c rest =>
    rcases h c (List.mem_cons_self c rest) with h1 | h1
    · subst h1
      cases rest with
      | nil => rfl
      | cons c2 rest2 =>
        rcases h c2 (by simp) with h2 | h2 <;> subst h2 <;> rfl
    · subst h1
      rfl

theorem c1_bin_small : ∀ v < 16, Base.to_num .Bin (Base.fromNum .Bin v) = some v := by
  decide

/-- C1: for every base `B` in {Hex, Dec, Bin} and every value `v` in
`[0, 2^64 - 1]`, parsing the text produced by `B`'s format operation
(`Base::from`) with `B`'s parse operation (`Base::to_num`) returns exactly
`Ok(v)`. -/
theorem c1_round_trip (b : Base) (v : Nat) (hv : v < U64) :
    b.to_num (b.fromNum v) = some v := by
  cases b with
  | Dec =>
    show fromStrRadix 10 (stripSuffixU (natToDigits 10 v)) = some v
    have hmem := natToDigits_mem 10 (by omega) v
    obtain ⟨hu, _, _⟩ := digitChars_basic 10 (by omega) _ hmem
    rw [stripSuffixU_eq_self _ hu,
      fromStrRadix_digits 10 (by omega) _ (natToDigits_ne_nil 10 v (by omega))
        (digitChars_isSome 10 (by omega) _ hmem)
        (by rw [natToDigits_val 10 (by omega) (by omega)]; exact hv),
      natToDigits_val 10 (by omega) (by omega)]
  | Hex =>
    have hmem := natToDigits_mem 16 (by omega) v
    obtain ⟨hu, hws, hlc⟩ := digitChars_basic 16 (by omega) _ hmem
    have hu2 : 'u' ∉ ('0' :: 'x' :: natToDigits 16 v) := by
      intro h
      rcases List.mem_cons.mp h with h | h
      · exact absurd h (by decide)
      · rcases List.mem_cons.mp h with h | h
        · exact absurd h (by decide)
        · exact hu h
    have hws2 : ∀ c ∈ ('0' :: 'x' :: natToDigits 16 v), isRustWS c = false := by
      intro c hc
      rcases List.mem_cons.mp hc with h | hc
      · subst h; decide
      · rcases List.mem_cons.mp hc with h | hc
        · subst h; decide
        · exact hws c hc
    have hlc2 : ∀ c ∈ ('0' :: 'x' :: natToDigits 16 v), lowerChar c = c := by
      intro c hc
      rcases List.mem_cons.mp hc with h | hc
      · subst h; decide
      · rcases List.mem_cons.mp hc with h | hc
        · subst h; decide
        · exact hlc c hc
    simp only [Base.to_num, Base.fromNum]
    rw [stripSuffixU_eq_self _ hu2, trimList_eq_self _ hws2, map_lowerChar_eq_self _ hlc2,
      show toL "0x" = ['0', 'x'] from by decide,
      show stripPrefixStr ['0', 'x'] ('0' :: 'x' :: natToDigits 16 v) =
        some (natToDigits 16 v) from by simp [stripPrefixStr]]
    show fromStrRadix 16 (natToDigits 16 v) = some v
    rw [fromStrRadix_digits 16 (by omega) _ (natToDigits_ne_nil 16 v (by omega))
        (digitChars_isSome 16 (by omega) _ hmem)
        (by rw [natToDigits_val 16 (by omega) (by omega)]; exact hv),
      natToDigits_val 16 (by omega) (by omega)]
  | Bin =>
    by_cases hsmall : v < 16
    · exact c1_bin_small v hsmall
    · simp only [Base.to_num, Base.fromNum, if_neg hsmall]
      have hchars : ∀ c ∈ joinSep (binGroupsLE v).reverse, c = '0' ∨ c = '1' ∨ c = '_' := by
        intro c hc
        rcases joinSep_mem _ c hc with h | ⟨g, hg, hcg⟩
        · exact Or.inr (Or.inr h)
        · rcases binGroups_mem v g (List.mem_reverse.mp hg) c hcg with h | h
          · exact Or.inl h
          · exact Or.inr (Or.inl h)
      have hu : 'u' ∉ joinSep (binGroupsLE v).reverse := by
        intro h
        rcases hchars 'u' h with h | h | h <;> exact absurd h (by decide)
      have hws : ∀ c ∈ joinSep (binGroupsLE v).reverse, isRustWS c = false := by
        intro c hc
        rcases hchars c hc with h | h | h <;> subst h <;> decide
      have hlc : ∀ c ∈ joinSep (binGroupsLE v).reverse, lowerChar c = c := by
        intro c hc
        rcases hchars c hc with h | h | h <;> subst h <;> decide
      rw [stripSuffixU_eq_self _ hu, trimList_eq_self _ hws, map_lowerChar_eq_self _ hlc]
      have hnounder : ∀ g ∈ (binGroupsLE v).reverse, '_' ∉ g := by
        intro g hg h
        rcases binGroups_mem v g (List.mem_reverse.mp hg) '_' h with h | h <;>
          exact absurd h (by decide)
      rw [joinSep_filter _ hnounder]
      have hflat : ∀ c ∈ (binGroupsLE v).reverse.flatten, c = '0' ∨ c = '1' := by
        intro c hc
        obtain ⟨g, hg, hcg⟩ := List.mem_flatten.mp hc
        exact binGroups_mem v g (List.mem_reverse.mp hg) c hcg
      rw [stripPrefixStr_0b_none _ hflat]
      show fromStrRadix 2 (binGroupsLE v).reverse.flatten = some v
      have hd : ∀ c ∈ (binGroupsLE v).reverse.flatten, (charToDigit 2 c).isSome := by
        intro c hc
        rcases hflat c hc with h | h <;> subst h <;> decide
      rw [fromStrRadix_digits 2 (by omega) _ (binGroups_flatten_ne_nil v (by omega)) hd
          (by rw [binGroups_flatten_val]; exact hv),
        binGroups_flatten_val]

/-- C1 witness: the round trip at `Bin` and `2701`. -/
theorem c1_round_trip_witness :
    2701 < U64 ∧ Base.to_num .Bin (Base.fromNum .Bin 2701) = some 2701 :=
  ⟨by decide, c1_round_trip .Bin 2701 (by decide)⟩

/-! ## Relating the code's binary formatter to the spec's description -/

theorem bitc_eq_digitChar : ∀ d < 2, bitc d = digitChar d := by
  decide

theorem natDigits_two_eq : ∀ n, natDigits 2 n = ((Nat.digits 2 n).map bitc).reverse := by
  intro n
  induction n using Nat.strong_induction_on with
  | _ n ih =>
    rw [natDigits_eq 2 (by omega)]
    by_cases hn : n = 0
    · rw [if_pos hn, hn]
      simp
    · rw [if_neg hn, Nat.digits_def' (by omega : 1 < 2) (Nat.pos_of_ne_zero hn)]
      simp only [List.map_cons, List.reverse_cons]
      rw [ih (n / 2) (Nat.div_lt_self (Nat.pos_of_ne_zero hn) (by omega)),
        bitc_eq_digitChar (n % 2) (Nat.mod_lt n (by omega))]

theorem specNibble_eq : ∀ m < 16, specNibble m = pad4 (natToDigits 2 m) := by
  decide

theorem binGroupsLE_digits : ∀ v,
    binGroupsLE v = (Nat.digits 16 v).map (fun m => pad4 (natToDigits 2 m)) := by
  intro v
  induction v using Nat.strong_induction_on with
  | _ v ih =>
    rw [binGroupsLE_eq]
    by_cases hv : v = 0
    · rw [if_pos hv, hv]
      simp
    · rw [if_neg hv, Nat.digits_def' (by omega : 1 < 16) (Nat.pos_of_ne_zero hv),
        List.map_cons, ih (v / 16) (Nat.div_lt_self (Nat.pos_of_ne_zero hv) (by omega))]

/-- C2: the binary format operation returns the plain binary digits (no
leading zeros, no separator) when the value is below 16, with 0 formatting
as `"0"`, and for values from 16 on the 4-bit nibble groups from the
least-significant end, each rendered as a zero-padded 4-digit binary string,
joined most-significant-first with underscores — stated as equality with a
formatter written from the spec's words, plus the spec's examples. -/
theorem c2_bin_format :
    Base.fromNum .Bin 0 = toL "0" ∧ Base.fromNum .Bin 15 = toL "1111" ∧
    Base.fromNum .Bin 16 = toL "0001_0000" ∧
    Base.fromNum .Bin 2701 = toL "1010_1000_1101" ∧
    ∀ v, Base.fromNum .Bin v = specBinFormat v ∧
      (v < 16 → v ≠ 0 → (Base.fromNum .Bin v).head? ≠ some '0') := by
  refine ⟨by decide, by decide, by decide, by decide, ?_⟩
  intro v
  constructor
  · by_cases hs : v < 16
    · rw [show Base.fromNum .Bin v =
          if v < 16 then natToDigits 2 v else joinSep (binGroupsLE v).reverse from rfl,
        if_pos hs]
      unfold specBinFormat
      rw [if_pos hs]
      by_cases hz : v = 0
      · rw [if_pos hz, hz]
        rfl
      · rw [if_neg hz]
        unfold natToDigits
        rw [if_neg hz]
        exact natDigits_two_eq v
    · rw [show Base.fromNum .Bin v =
          if v < 16 then natToDigits 2 v else joinSep (binGroupsLE v).reverse from rfl,
        if_neg hs]
      unfold specBinFormat
      rw [if_neg hs, binGroupsLE_digits]
      congr 1
      congr 1
      apply List.map_congr_left
      intro m hm
      exact (specNibble_eq m (Nat.digits_lt_base (by omega) hm)).symm
  · intro hs hz
    exact (by decide :
      ∀ v' < 16, v' ≠ 0 → (Base.fromNum .Bin v').head? ≠ some '0') v hs hz

/-- C2 witness: the format/spec agreement and the no-leading-zero property
at the concrete value 9. -/
theorem c2_bin_format_witness :
    Base.fromNum .Bin 9 = specBinFormat 9 ∧ (Base.fromNum .Bin 9).head? ≠ some '0' :=
  ⟨(c2_bin_format.2.2.2.2 9).1, (c2_bin_format.2.2.2.2 9).2 (by decide) (by decide)⟩

/-! ## Claim C3: decimal parsing and digit characters -/

/-- A base-10 digit character. -/
def isDigitChar (c : Char) : Bool :=
  decide (48 ≤ c.toNat ∧ c.toNat ≤ 57)

theorem isSome_charToDigit_ten (c : Char) (h : (charToDigit 10 c).isSome) :
    isDigitChar c = true := by
  unfold charToDigit at h
  split_ifs at h with h1 h2 h3
  · unfold isDigitChar
    exact decide_eq_true ⟨h1.1, h1.2.1⟩
  · omega
  · omega
  · exact absurd h (by simp)

/-- C3 counterexample: `to_num(Dec, "+12")` succeeds with 12 although the
suffix-stripped input contains the non-digit character `+` (so a plus sign
does not make the decimal parse fail). -/
theorem c3_counterexample :
    Base.to_num .Dec (toL "+12") = some 12 ∧
    '+' ∈ stripSuffixU (toL "+12") ∧ isDigitChar '+' = false := by
  decide

/-- C3 amended: after the trailing-`u` strip, decimal parsing succeeds only
on strings of base-10 digit characters, or on a single leading `+` followed
by at least one digit character; a minus sign or a prefix such as `0d` is
still an error. -/
theorem c3_dec_digits :
    Base.to_num .Dec (toL "-012") = none ∧ Base.to_num .Dec (toL "0d012") = none ∧
    ∀ s v, Base.to_num .Dec s = some v →
      (∀ c ∈ stripSuffixU s, isDigitChar c = true) ∨
      (∃ r, stripSuffixU s = '+' :: r ∧ r ≠ [] ∧ ∀ c ∈ r, isDigitChar c = true) := by
  refine ⟨by decide, by decide, ?_⟩
  intro s v h
  have h' : fromStrRadix 10 (stripSuffixU s) = some v := h
  rcases fromStrRadix_sound 10 _ v h' with ⟨hd, _, _⟩ | ⟨r, he, hne, hd, _, _⟩
  · exact Or.inl (fun c hc => isSome_charToDigit_ten c (hd c hc))
  · exact Or.inr ⟨r, he, hne, fun c hc => isSome_charToDigit_ten c (hd c hc)⟩

/-- C3 witness: the amended only-if at the accepted input `"012"`. -/
theorem c3_dec_digits_witness :
    (∀ c ∈ stripSuffixU (toL "012"), isDigitChar c = true) ∨
    (∃ r, stripSuffixU (toL "012") = '+' :: r ∧ r ≠ [] ∧
      ∀ c ∈ r, isDigitChar c = true) :=
  c3_dec_digits.2.2 (toL "012") 12 (by decide)

/-! ## Claim C4: hex parsing is case-insensitive and prefix-optional -/

theorem toNat_ofNat_valid (n : Nat) (h : n < 55296) : (Char.ofNat n).toNat = n := by
  unfold Char.ofNat
  rw [dif_pos (Or.inl h)]
  rfl

theorem charToDigit16_lowerChar (c : Char) :
    charToDigit 16 (lowerChar c) = charToDigit 16 c := by
  by_cases hup : 65 ≤ c.toNat ∧ c.toNat ≤ 90
  · unfold lowerChar
    rw [if_pos hup]
    unfold charToDigit
    rw [toNat_ofNat_valid (c.toNat + 32) (by omega)]
    split_ifs <;> first | rfl | (simp only [Option.some.injEq]; omega) | (exfalso; omega)
  · unfold lowerChar
    rw [if_neg hup]

theorem hexDigit_facts (c : Char) (h : (charToDigit 16 c).isSome) :
    c ≠ 'u' ∧ isRustWS c = false := by
  constructor
  · intro e
    rw [e] at h
    exact absurd h (by decide)
  · unfold charToDigit at h
    unfold isRustWS
    split_ifs at h with h1 h2 h3
    · simp only [decide_eq_false_iff_not]
      omega
    · simp only [decide_eq_false_iff_not]
      omega
    · simp only [decide_eq_false_iff_not]
      omega
    · exact absurd h (by simp)

theorem stripPrefixStr_0x_none (cs : List Char)
    (h : ∀ c ∈ cs, (charToDigit 16 c).isSome) :
    stripPrefixStr (toL "0x") cs = none := by
  rw [show toL "0x" = ['0', 'x'] from by decide]
  cases cs with
  | nil => rfl
  | cons c rest =>
    show (if '0' = c then stripPrefixStr ['x'] rest else none) = none
    by_cases h0 : ('0' : Char) = c
    · rw [if_pos h0]
      cases rest with
      | nil => rfl
      | cons c2 rest2 =>
        show (if 'x' = c2 then stripPrefixStr [] rest2 else none) = none
        rw [if_neg]
        intro he
        have hh := h c2 (by simp)
        rw [← he] at hh
        exact absurd hh (by decide)
    · rw [if_neg h0]

theorem to_num_hex_eq (s : List Char) (h : ∀ c ∈ s, (charToDigit 16 c).isSome) :
    Base.to_num .Hex s = fromStrRadix 16 (s.map lowerChar) := by
  have hu : 'u' ∉ s := fun hm => (hexDigit_facts 'u' (h 'u' hm)).1 rfl
  have hws : ∀ c ∈ s, isRustWS c = false := fun c hc => (hexDigit_facts c (h c hc)).2
  have hmap : ∀ c ∈ s.map lowerChar, (charToDigit 16 c).isSome := by
    intro c hc
    obtain ⟨a, ha, he⟩ := List.mem_map.mp hc
    rw [← he, charToDigit16_lowerChar]
    exact h a ha
  show (match stripPrefixStr (toL "0x") ((trimList (stripSuffixU s)).map lowerChar) with
    | some rest => fromStrRadix 16 rest
    | none => fromStrRadix 16 ((trimList (stripSuffixU s)).map lowerChar)) = _
  rw [stripSuffixU_eq_self _ hu, trimList_eq_self _ hws, stripPrefixStr_0x_none _ hmap]

/-- C4: hexadecimal parsing is case-insensitive and the `0x` prefix is
optional: for every hex-digit string `s`, parsing `s` with a `0x` or `0X`
prefix and parsing any case variant of `s` return the same value as parsing
`s`; in particular `0xFF`, `ff` and `0XFF` all parse to 255. -/
theorem c4_hex_case_insensitive :
    Base.to_num .Hex (toL "0xFF") = some 255 ∧ Base.to_num .Hex (toL "ff") = some 255 ∧
    Base.to_num .Hex (toL "0XFF") = some 255 ∧
    ∀ s, (∀ c ∈ s, (charToDigit 16 c).isSome) →
      Base.to_num .Hex ('0' :: 'x' :: s) = Base.to_num .Hex s ∧
      Base.to_num .Hex ('0' :: 'X' :: s) = Base.to_num .Hex s ∧
      ∀ t, t.map lowerChar = s.map lowerChar →
        Base.to_num .Hex t = Base.to_num .Hex s := by
  refine ⟨by decide, by decide, by decide, ?_⟩
  intro s hs
  have hxfacts : ∀ x : Char, x = 'x' ∨ x = 'X' →
      Base.to_num .Hex ('0' :: x :: s) = fromStrRadix 16 (s.map lowerChar) := by
    intro x hx
    have hu2 : 'u' ∉ ('0' :: x :: s) := by
      intro hm
      rcases List.mem_cons.mp hm with h | hm
      · exact absurd h (by decide)
      · rcases List.mem_cons.mp hm with h | hm
        · rcases hx with e | e <;> rw [e] at h <;> exact absurd h (by decide)
        · exact (hexDigit_facts 'u' (hs 'u' hm)).1 rfl
    have hws2 : ∀ c ∈ ('0' :: x :: s), isRustWS c = false := by
      intro c hc
      rcases List.mem_cons.mp hc with h | hc
      · subst h; decide
      · rcases List.mem_cons.mp hc with h | hc
        · rcases hx with e | e <;> subst e <;> subst h <;> decide
        · exact (hexDigit_facts c (hs c hc)).2
    have hmapx : ('0' :: x :: s).map lowerChar = '0' :: 'x' :: s.map lowerChar := by
      rcases hx with e | e <;> subst e <;>
        simp only [List.map_cons, show lowerChar '0' = '0' from by decide,
          show lowerChar 'x' = 'x' from by decide, show lowerChar 'X' = 'x' from by decide]
    show (match stripPrefixStr (toL "0x")
        ((trimList (stripSuffixU ('0' :: x :: s))).map lowerChar) with
      | some rest => fromStrRadix 16 rest
      | none => fromStrRadix 16 ((trimList (stripSuffixU ('0' :: x :: s))).map lowerChar))
      = fromStrRadix 16 (s.map lowerChar)
    rw [stripSuffixU_eq_self _ hu2, trimList_eq_self _ hws2, hmapx,
      show toL "0x" = ['0', 'x'] from by decide,
      show stripPrefixStr ['0', 'x'] ('0' :: 'x' :: s.map lowerChar) =
        some (s.map lowerChar) from by simp [stripPrefixStr]]
  refine ⟨?_, ?_, ?_⟩
  · rw [hxfacts 'x' (Or.inl rfl), to_num_hex_eq s hs]
  · rw [hxfacts 'X' (Or.inr rfl), to_num_hex_eq s hs]
  · intro t ht
    have hts : ∀ c ∈ t, (charToDigit 16 c).isSome := by
      intro c hc
      have h1 : lowerChar c ∈ s.map lowerChar := by
        rw [← ht]
        exact List.mem_map_of_mem _ hc
      obtain ⟨a, ha, he⟩ := List.mem_map.mp h1
      rw [← charToDigit16_lowerChar c, ← he, charToDigit16_lowerChar a]
      exact hs a ha
    rw [to_num_hex_eq t hts, to_num_hex_eq s hs, ht]

/-- C4 witness: prefix- and case-insensitivity at the hex-digit string `fF`. -/
theorem c4_hex_case_insensitive_witness :
    Base.to_num .Hex ('0' :: 'x' :: toL "fF") = Base.to_num .Hex (toL "fF") ∧
    Base.to_num .Hex (toL "Ff") = Base.to_num .Hex (toL "fF") :=
  ⟨(c4_hex_case_insensitive.2.2.2 (toL "fF") (by decide)).1,
   (c4_hex_case_insensitive.2.2.2 (toL "fF") (by decide)).2.2 (toL "Ff") (by decide)⟩

/-! ## Claim C5: binary parsing, underscores and the `0b` prefix -/

theorem char_eq_of_toNat_eq (c d : Char) (h : c.toNat = d.toNat) : c = d :=
  Char.ext (UInt32.ext h)

/-- The remainder binary parsing hands to `from_str_radix`: trailing-`u`
strip, trim, lowercasing, underscore removal and optional `0b` strip. -/
def binRemainder (s : List Char) : List Char :=
  match stripPrefixStr (toL "0b")
      (((trimList (stripSuffixU s)).map lowerChar).filter (fun c => c ≠ '_')) with
  | some rest => rest
  | none => ((trimList (stripSuffixU s)).map lowerChar).filter (fun c => c ≠ '_')

theorem to_num_bin_eq (s : List Char) :
    Base.to_num .Bin s = fromStrRadix 2 (binRemainder s) := by
  show (match stripPrefixStr (toL "0b")
      (((trimList (stripSuffixU s)).map lowerChar).filter (fun c => c ≠ '_')) with
    | some rest => fromStrRadix 2 rest
    | none => fromStrRadix 2
        (((trimList (stripSuffixU s)).map lowerChar).filter (fun c => c ≠ '_')))
    = fromStrRadix 2 (binRemainder s)
  unfold binRemainder
  cases stripPrefixStr (toL "0b")
    (((trimList (stripSuffixU s)).map lowerChar).filter (fun c => c ≠ '_')) <;> rfl

theorem isSome_charToDigit_two (c : Char) (h : (charToDigit 2 c).isSome) :
    c = '0' ∨ c = '1' := by
  unfold charToDigit at h
  split_ifs at h with h1 h2 h3
  · by_cases h0 : c.toNat = 48
    · exact Or.inl (char_eq_of_toNat_eq c '0' h0)
    · refine Or.inr (char_eq_of_toNat_eq c '1' ?_)
      have h49 : ('1' : Char).toNat = 49 := by decide
      omega
  · omega
  · omega
  · exact absurd h (by simp)

/-- C5 counterexample: `to_num(Bin, "+1")` succeeds with 1 although the
remainder after underscore removal and prefix stripping contains `+`, a
character that is neither `0` nor `1` (so such a character does not always
make the parse fail). -/
theorem c5_counterexample :
    Base.to_num .Bin (toL "+1") = some 1 ∧ binRemainder (toL "+1") = toL "+1" ∧
    ¬('+' = '0' ∨ '+' = '1') := by
  decide

/-- C5 amended: binary parsing removes all underscores and accepts an
optional `0b`/`0B` prefix (underscore insertion and the prefix do not change
the parsed value), and a successful parse forces the remainder after
underscore removal and prefix stripping to be all `0`/`1` characters — or a
single leading `+` followed by at least one `0`/`1` character. -/
theorem c5_bin_parsing :
    Base.to_num .Bin (toL "0b1010_1000_1101") = some 2701 ∧
    Base.to_num .Bin (toL "1010_1000_1101") = some 2701 ∧
    (∀ t, (∀ c ∈ t, c = '0' ∨ c = '1' ∨ c = '_') →
      Base.to_num .Bin t = Base.to_num .Bin (t.filter (fun c => c ≠ '_'))) ∧
    (∀ s, (∀ c ∈ s, c = '0' ∨ c = '1') →
      Base.to_num .Bin ('0' :: 'b' :: s) = Base.to_num .Bin s ∧
      Base.to_num .Bin ('0' :: 'B' :: s) = Base.to_num .Bin s) ∧
    (∀ s v, Base.to_num .Bin s = some v →
      (∀ c ∈ binRemainder s, c = '0' ∨ c = '1') ∨
      (∃ r, binRemainder s = '+' :: r ∧ r ≠ [] ∧ ∀ c ∈ r, c = '0' ∨ c = '1')) := by
  refine ⟨by decide, by decide, ?_, ?_, ?_⟩
  · intro t hchars
    have hfil : ∀ c ∈ t.filter (fun c => c ≠ '_'), c = '0' ∨ c = '1' := by
      intro c hc
      have hm := (List.mem_filter.mp hc).1
      have hp := (List.mem_filter.mp hc).2
      rcases hchars c hm with h | h | h
      · exact Or.inl h
      · exact Or.inr h
      · subst h; simp at hp
    have hu : 'u' ∉ t := by
      intro hm
      rcases hchars _ hm with h | h | h <;> exact absurd h (by decide)
    have hws : ∀ c ∈ t, isRustWS c = false := by
      intro c hc
      rcases hchars c hc with h | h | h <;> subst h <;> decide
    have hlc : ∀ c ∈ t, lowerChar c = c := by
      intro c hc
      rcases hchars c hc with h | h | h <;> subst h <;> decide
    have hu2 : 'u' ∉ t.filter (fun c => c ≠ '_') :=
      fun hm => hu (List.mem_of_mem_filter hm)
    have hws2 : ∀ c ∈ t.filter (fun c => c ≠ '_'), isRustWS c = false :=
      fun c hc => hws c (List.mem_of_mem_filter hc)
    have hlc2 : ∀ c ∈ t.filter (fun c => c ≠ '_'), lowerChar c = c :=
      fun c hc => hlc c (List.mem_of_mem_filter hc)
    have hff : (t.filter (fun c => c ≠ '_')).filter (fun c => c ≠ '_') =
        t.filter (fun c => c ≠ '_') := by
      rw [List.filter_eq_self]
      intro c hc
      exact (List.mem_filter.mp hc).2
    rw [to_num_bin_eq t, to_num_bin_eq (t.filter (fun c => c ≠ '_'))]
    unfold binRemainder
    rw [stripSuffixU_eq_self _ hu, trimList_eq_self _ hws, map_lowerChar_eq_self _ hlc,
      stripSuffixU_eq_self _ hu2, trimList_eq_self _ hws2, map_lowerChar_eq_self _ hlc2,
      hff]
  · intro s hchars
    have hu : 'u' ∉ s := by
      intro hm
      rcases hchars _ hm with h | h <;> exact absurd h (by decide)
    have hws : ∀ c ∈ s, isRustWS c = false := by
      intro c hc
      rcases hchars c hc with h | h <;> subst h <;> decide
    have hlc : ∀ c ∈ s, lowerChar c = c := by
      intro c hc
      rcases hchars c hc with h | h <;> subst h <;> decide
    have hfs : s.filter (fun c => c ≠ '_') = s := by
      rw [List.filter_eq_self]
      intro c hc
      rcases hchars c hc with h | h <;> subst h <;> decide
    have hbase : Base.to_num .Bin s = fromStrRadix 2 s := by
      rw [to_num_bin_eq]
      unfold binRemainder
      rw [stripSuffixU_eq_self _ hu, trimList_eq_self _ hws, map_lowerChar_eq_self _ hlc,
        hfs, stripPrefixStr_0b_none s hchars]
    have hpre : ∀ x : Char, x = 'b' ∨ x = 'B' →
        Base.to_num .Bin ('0' :: x :: s) = fromStrRadix 2 s := by
      intro x hx
      have hu2 : 'u' ∉ ('0' :: x :: s) := by
        intro hm
        rcases List.mem_cons.mp hm with h | hm
        · exact absurd h (by decide)
        · rcases List.mem_cons.mp hm with h | hm
          · rcases hx with e | e <;> rw [e] at h <;> exact absurd h (by decide)
          · exact hu hm
      have hws2 : ∀ c ∈ ('0' :: x :: s), isRustWS c = false := by
        intro c hc
        rcases List.mem_cons.mp hc with h | hc
        · subst h; decide
        · rcases List.mem_cons.mp hc with h | hc
          · rcases hx with e | e <;> subst e <;> subst h <;> decide
          · exact hws c hc
      have hmapx : ('0' :: x :: s).map lowerChar = '0' :: 'b' :: s.map lowerChar := by
        rcases hx with e | e <;> subst e <;>
          simp only [List.map_cons, show lowerChar '0' = '0' from by decide,
            show lowerChar 'b' = 'b' from by decide, show lowerChar 'B' = 'b' from by decide]
      have hfil2 : ('0' :: 'b' :: s.map lowerChar).filter (fun c => c ≠ '_') =
          '0' :: 'b' :: s := by
        rw [map_lowerChar_eq_self _ hlc, List.filter_cons, List.filter_cons]
        simp only [show (decide (('0' : Char) ≠ '_')) = true from by decide,
          show (decide (('b' : Char) ≠ '_')) = true from by decide, if_pos, hfs]
      rw [to_num_bin_eq]
      unfold binRemainder
      rw [stripSuffixU_eq_self _ hu2, trimList_eq_self _ hws2, hmapx, hfil2,
        show toL "0b" = ['0', 'b'] from by decide,
        show stripPrefixStr ['0', 'b'] ('0' :: 'b' :: s) = some s from by
          simp [stripPrefixStr]]
    exact ⟨by rw [hpre 'b' (Or.inl rfl), hbase], by rw [hpre 'B' (Or.inr rfl), hbase]⟩
  · intro s v h
    rw [to_num_bin_eq] at h
    rcases fromStrRadix_sound 2 _ v h with ⟨hd, _, _⟩ | ⟨r, he, hne, hd, _, _⟩
    · exact Or.inl (fun c hc => isSome_charToDigit_two c (hd c hc))
    · exact Or.inr ⟨r, he, hne, fun c hc => isSome_charToDigit_two c (hd c hc)⟩

/-- C5 witness: underscore insertion, prefix addition and the success shape
at concrete binary strings. -/
theorem c5_bin_parsing_witness :
    Base.to_num .Bin (toL "1_01") = Base.to_num .Bin (toL "101") ∧
    Base.to_num .Bin ('0' :: 'b' :: toL "101") = Base.to_num .Bin (toL "101") ∧
    ((∀ c ∈ binRemainder (toL "101"), c = '0' ∨ c = '1') ∨
     (∃ r, binRemainder (toL "101") = '+' :: r ∧ r ≠ [] ∧
       ∀ c ∈ r, c = '0' ∨ c = '1')) :=
  ⟨by
    have := c5_bin_parsing.2.2.1 (toL "1_01") (by decide)
    rw [this]
    decide,
   (c5_bin_parsing.2.2.2.1 (toL "101") (by decide)).1,
   c5_bin_parsing.2.2.2.2 (toL "101") 5 (by decide)⟩

/-! ## Claim C6: overflow is an error, not wraparound -/

/-- The numeric radix each base passes to `from_str_radix`. -/
def Base.radix : Base → Nat
  | .Bin => 2
  | .Dec => 10
  | .Hex => 16

theorem valFrom_map_lowerChar (s : List Char) :
    ∀ acc, valFrom 16 (s.map lowerChar) acc = valFrom 16 s acc := by
  induction s with
  | nil => intro acc; rfl
  | cons c cs ih =>
    intro acc
    rw [List.map_cons, valFrom_cons, valFrom_cons, charToDigit16_lowerChar, ih]

theorem to_num_bin_digits (s : List Char) (hchars : ∀ c ∈ s, c = '0' ∨ c = '1') :
    Base.to_num .Bin s = fromStrRadix 2 s := by
  have hu : 'u' ∉ s := by
    intro hm
    rcases hchars _ hm with h | h <;> exact absurd h (by decide)
  have hws : ∀ c ∈ s, isRustWS c = false := by
    intro c hc
    rcases hchars c hc with h | h <;> subst h <;> decide
  have hlc : ∀ c ∈ s, lowerChar c = c := by
    intro c hc
    rcases hchars c hc with h | h <;> subst h <;> decide
  have hfs : s.filter (fun c => c ≠ '_') = s := by
    rw [List.filter_eq_self]
    intro c hc
    rcases hchars c hc with h | h <;> subst h <;> decide
  rw [to_num_bin_eq]
  unfold binRemainder
  rw [stripSuffixU_eq_self _ hu, trimList_eq_self _ hws, map_lowerChar_eq_self _ hlc,
    hfs, stripPrefixStr_0b_none s hchars]

theorem digit_not_u (radix : Nat) (hr : radix ≤ 16) (c : Char)
    (h : (charToDigit radix c).isSome) : c ≠ 'u' := by
  intro e
  rw [e] at h
  unfold charToDigit at h
  have h117 : ('u' : Char).toNat = 117 := by decide
  split_ifs at h with h1 h2 h3
  · omega
  · omega
  · omega
  · exact absurd h (by simp)

/-- C6: parsing never wraps around: `parse(hex, "0xffffffffffffffff")`
returns `2^64 - 1`, and for every base, a digit string whose accumulated
value exceeds `2^64 - 1` makes `to_num` return an error rather than a
truncated value. -/
theorem c6_no_overflow_wrap :
    Base.to_num .Hex (toL "0xffffffffffffffff") = some (2 ^ 64 - 1) ∧
    ∀ (b : Base) (s : List Char), (∀ c ∈ s, (charToDigit b.radix c).isSome) →
      2 ^ 64 - 1 < valFrom b.radix s 0 → Base.to_num b s = none := by
  refine ⟨by decide, ?_⟩
  intro b s hd hv
  have hv' : U64 ≤ valFrom b.radix s 0 := by
    have : U64 = 2 ^ 64 := rfl
    omega
  cases b with
  | Dec =>
    show fromStrRadix 10 (stripSuffixU s) = none
    have hu : 'u' ∉ s := fun hm => digit_not_u 10 (by omega) 'u' (hd 'u' hm) rfl
    rw [stripSuffixU_eq_self _ hu]
    exact fromStrRadix_overflow 10 s hd hv'
  | Hex =>
    rw [to_num_hex_eq s hd]
    apply fromStrRadix_overflow
    · intro c hc
      obtain ⟨a, ha, he⟩ := List.mem_map.mp hc
      rw [← he, charToDigit16_lowerChar]
      exact hd a ha
    · rw [valFrom_map_lowerChar]
      exact hv'
  | Bin =>
    rw [to_num_bin_digits s (fun c hc => isSome_charToDigit_two c (hd c hc))]
    exact fromStrRadix_overflow 2 s hd hv'

/-- C6 witness: the decimal digit string for `2^64` overflows and errors. -/
theorem c6_no_overflow_wrap_witness :
    Base.to_num .Dec (toL "18446744073709551616") = none :=
  c6_no_overflow_wrap.2 .Dec (toL "18446744073709551616") (by decide) (by decide)

/-! ## Command execution: claims C7-C10 -/

theorem change_base_error_state (app : App) (c a e : List Char)
    (h : (app.change_base c a).2 = .error e) : (app.change_base c a).1 = app := by
  unfold App.change_base at h ⊢
  split_ifs at h ⊢ <;> simp_all

theorem execute_unfold (app : App) (rest : List Char) :
    App.execute app (':' :: rest) =
      (if trimList rest = toL "h" ∨ trimList rest = toL "help" then (app, .ok ())
       else
        if ¬((splitWS (trimList rest)).length = 2 ∨
            (splitWS (trimList rest)).length = 4) then
          (app, .error (toL "Error: wrong command format"))
        else
          match (app.change_base ((splitWS (trimList rest)).getD 0 [])
              ((splitWS (trimList rest)).getD 1 [])).2 with
          | .error e =>
            ((app.change_base ((splitWS (trimList rest)).getD 0 [])
                ((splitWS (trimList rest)).getD 1 [])).1, .error e)
          | .ok _ =>
            if (splitWS (trimList rest)).length = 4 then
              (app.change_base ((splitWS (trimList rest)).getD 0 [])
                  ((splitWS (trimList rest)).getD 1 [])).1.change_base
                ((splitWS (trimList rest)).getD 2 [])
                ((splitWS (trimList rest)).getD 3 [])
            else
              ((app.change_base ((splitWS (trimList rest)).getD 0 [])
                  ((splitWS (trimList rest)).getD 1 [])).1, .ok ())) := rfl

theorem execute_eq (app : App) (rest : List Char)
    (hh : trimList rest ≠ toL "h") (hhelp : trimList rest ≠ toL "help") :
    App.execute app (':' :: rest) =
      if ¬((splitWS (trimList rest)).length = 2 ∨ (splitWS (trimList rest)).length = 4) then
        (app, .error (toL "Error: wrong command format"))
      else
        match (app.change_base ((splitWS (trimList rest)).getD 0 [])
            ((splitWS (trimList rest)).getD 1 [])).2 with
        | .error e =>
          ((app.change_base ((splitWS (trimList rest)).getD 0 [])
              ((splitWS (trimList rest)).getD 1 [])).1, .error e)
        | .ok _ =>
          if (splitWS (trimList rest)).length = 4 then
            (app.change_base ((splitWS (trimList rest)).getD 0 [])
                ((splitWS (trimList rest)).getD 1 [])).1.change_base
              ((splitWS (trimList rest)).getD 2 []) ((splitWS (trimList rest)).getD 3 [])
          else
            ((app.change_base ((splitWS (trimList rest)).getD 0 [])
                ((splitWS (trimList rest)).getD 1 [])).1, .ok ()) := by
  rw [execute_unfold, if_neg (fun hor => Or.elim hor hh hhelp)]

theorem execute_wrong_count (app : App) (rest : List Char)
    (hh : trimList rest ≠ toL "h") (hhelp : trimList rest ≠ toL "help")
    (h2 : (splitWS (trimList rest)).length ≠ 2)
    (h4 : (splitWS (trimList rest)).length ≠ 4) :
    App.execute app (':' :: rest) = (app, .error (toL "Error: wrong command format")) := by
  rw [execute_eq app rest hh hhelp, if_pos (fun hor => Or.elim hor h2 h4)]

theorem execute_two_tokens (app : App) (rest : List Char)
    (hh : trimList rest ≠ toL "h") (hhelp : trimList rest ≠ toL "help")
    (hlen : (splitWS (trimList rest)).length = 2) :
    App.execute app (':' :: rest) =
      app.change_base ((splitWS (trimList rest)).getD 0 [])
        ((splitWS (trimList rest)).getD 1 []) := by
  rw [execute_eq app rest hh hhelp, if_neg (fun hc => hc (Or.inl hlen))]
  cases hr : (app.change_base ((splitWS (trimList rest)).getD 0 [])
      ((splitWS (trimList rest)).getD 1 [])).2 with
  | error e => exact Prod.ext rfl hr.symm
  | ok u =>
    cases u
    rw [hlen, if_neg (by decide : ¬(2 : Nat) = 4)]
    exact Prod.ext rfl hr.symm

theorem execute_four_tokens_err (app st1 : App) (rest e : List Char)
    (hh : trimList rest ≠ toL "h") (hhelp : trimList rest ≠ toL "help")
    (hlen : (splitWS (trimList rest)).length = 4)
    (hr : app.change_base ((splitWS (trimList rest)).getD 0 [])
      ((splitWS (trimList rest)).getD 1 []) = (st1, .error e)) :
    App.execute app (':' :: rest) = (st1, .error e) := by
  rw [execute_eq app rest hh hhelp, if_neg (fun hc => hc (Or.inr hlen)), hr]

theorem execute_four_tokens_ok (app st1 : App) (rest : List Char)
    (hh : trimList rest ≠ toL "h") (hhelp : trimList rest ≠ toL "help")
    (hlen : (splitWS (trimList rest)).length = 4)
    (hr : app.change_base ((splitWS (trimList rest)).getD 0 [])
      ((splitWS (trimList rest)).getD 1 []) = (st1, .ok ())) :
    App.execute app (':' :: rest) =
      st1.change_base ((splitWS (trimList rest)).getD 2 [])
        ((splitWS (trimList rest)).getD 3 []) := by
  rw [execute_eq app rest hh hhelp, if_neg (fun hc => hc (Or.inr hlen)), hr]
  show (if (splitWS (trimList rest)).length = 4 then
      st1.change_base ((splitWS (trimList rest)).getD 2 [])
        ((splitWS (trimList rest)).getD 3 [])
    else (st1, .ok ())) = _
  rw [if_pos hlen]

/-- C7 counterexample: `:fro hex` has exactly 2 tokens (and is not a help
command), yet `execute` returns the wrong-command-format error — the
unknown-selector failure inside the base-change carries the same format-error
message, so a format error is not returned only when the token count is bad. -/
theorem c7_counterexample :
    trimList (toL "fro hex") ≠ toL "h" ∧ trimList (toL "fro hex") ≠ toL "help" ∧
    (splitWS (trimList (toL "fro hex"))).length = 2 ∧
    (App.execute App.new (':' :: toL "fro hex")).2 =
      .error (toL "Error: wrong command format") := by
  decide

/-- C7 amended: for a command line starting with `:` whose trimmed remainder
is not `h`/`help`, the token-count validation rejects with the format error
exactly when the token count is neither 2 nor 4; with 2 tokens `execute`
behaves as the single base-change, and with 4 tokens as the two base-changes
in order — each of which can itself fail (an unknown selector fails with the
same format-error message).  `:from hex to dec` succeeds and sets
input = Hex, output = Dec; `:from hex to dec.` fails. -/
theorem c7_token_count :
    App.execute App.new (toL ":from hex to dec") =
      ({ in_base := .Hex, out_base := .Dec }, .ok ()) ∧
    (App.execute App.new (toL ":from hex to dec.")).2 = .error (toL "No type dec.") ∧
    ∀ (app : App) (rest : List Char),
      trimList rest ≠ toL "h" → trimList rest ≠ toL "help" →
      (((splitWS (trimList rest)).length ≠ 2 ∧ (splitWS (trimList rest)).length ≠ 4) →
        App.execute app (':' :: rest) =
          (app, .error (toL "Error: wrong command format"))) ∧
      ((splitWS (trimList rest)).length = 2 →
        App.execute app (':' :: rest) =
          app.change_base ((splitWS (trimList rest)).getD 0 [])
            ((splitWS (trimList rest)).getD 1 [])) ∧
      ((splitWS (trimList rest)).length = 4 →
        (∀ st1, app.change_base ((splitWS (trimList rest)).getD 0 [])
            ((splitWS (trimList rest)).getD 1 []) = (st1, .ok ()) →
          App.execute app (':' :: rest) =
            st1.change_base ((splitWS (trimList rest)).getD 2 [])
              ((splitWS (trimList rest)).getD 3 [])) ∧
        (∀ st1 e, app.change_base ((splitWS (trimList rest)).getD 0 [])
            ((splitWS (trimList rest)).getD 1 []) = (st1, .error e) →
          App.execute app (':' :: rest) = (st1, .error e))) := by
  refine ⟨by decide, by decide, ?_⟩
  intro app rest hh hhelp
  refine ⟨fun hc => execute_wrong_count app rest hh hhelp hc.1 hc.2,
    fun hlen => execute_two_tokens app rest hh hhelp hlen,
    fun hlen => ⟨fun st1 hr => execute_four_tokens_ok app st1 rest hh hhelp hlen hr,
      fun st1 e hr => execute_four_tokens_err app st1 rest e hh hhelp hlen hr⟩⟩

/-- C7 witness: the 2-token case at `:to hex`. -/
theorem c7_token_count_witness :
    App.execute App.new (':' :: toL "to hex") =
      App.new.change_base ((splitWS (trimList (toL "to hex"))).getD 0 [])
        ((splitWS (trimList (toL "to hex"))).getD 1 []) :=
  (c7_token_count.2.2 App.new (toL "to hex") (by decide) (by decide)).2.1 (by decide)

/-- C8: in a 4-token command the two base-changes apply in order and a
failure of the second does not roll back the first: if the first pair
succeeds (yielding state `st1`) and the second fails, `execute` returns the
error with the state still `st1` as mutated by the first change; in
particular `:from hex to dex` leaves the input base Hexadecimal and reports
the unknown-base error for `dex`. -/
theorem c8_partial_application :
    App.execute App.new (toL ":from hex to dex") =
      ({ in_base := .Hex, out_base := .Bin }, .error (toL "No type dex")) ∧
    ∀ (app st1 : App) (rest e : List Char),
      trimList rest ≠ toL "h" → trimList rest ≠ toL "help" →
      (splitWS (trimList rest)).length = 4 →
      app.change_base ((splitWS (trimList rest)).getD 0 [])
        ((splitWS (trimList rest)).getD 1 []) = (st1, .ok ()) →
      (st1.change_base ((splitWS (trimList rest)).getD 2 [])
        ((splitWS (trimList rest)).getD 3 [])).2 = .error e →
      App.execute app (':' :: rest) = (st1, .error e) := by
  refine ⟨by decide, ?_⟩
  intro app st1 rest e hh hhelp hlen h1 h2
  rw [execute_four_tokens_ok app st1 rest hh hhelp hlen h1]
  exact Prod.ext (change_base_error_state st1 _ _ e h2) h2

/-- C8 witness: `:from hex to dex` from the state (Bin, Bin) applies the
first change and keeps it while the second fails. -/
theorem c8_partial_application_witness :
    App.execute { in_base := Base.Bin, out_base := Base.Bin }
        (':' :: toL "from hex to dex") =
      ({ in_base := Base.Hex, out_base := Base.Bin }, .error (toL "No type dex")) :=
  c8_partial_application.2 { in_base := .Bin, out_base := .Bin }
    { in_base := .Hex, out_base := .Bin } (toL "from hex to dex") (toL "No type dex")
    (by decide) (by decide) (by decide) (by decide) (by decide)

/-- C9: executing `:h` or `:help` (exact match after stripping the sentinel
and trimming) succeeds and leaves the whole session state — both the input
base and the output base — unchanged. -/
theorem c9_help_frame (app : App) (rest : List Char)
    (h : trimList rest = toL "h" ∨ trimList rest = toL "help") :
    App.execute app (':' :: rest) = (app, .ok ()) := by
  rw [execute_unfold, if_pos h]

/-- C9 witness: `:help` on a fresh session. -/
theorem c9_help_frame_witness :
    App.execute App.new (':' :: toL "help") = (App.new, .ok ()) :=
  c9_help_frame App.new (toL "help") (by decide)

/-- C10: single-change commands are atomic: when the sentinel-stripped
remainder splits into exactly 2 tokens and `execute` returns an error, the
session state is unchanged (both errors of the base-change occur before any
assignment). -/
theorem c10_two_token_atomic (app : App) (rest e : List Char)
    (hh : trimList rest ≠ toL "h") (hhelp : trimList rest ≠ toL "help")
    (hlen : (splitWS (trimList rest)).length = 2)
    (herr : (App.execute app (':' :: rest)).2 = .error e) :
    (App.execute app (':' :: rest)).1 = app := by
  rw [execute_two_tokens app rest hh hhelp hlen] at herr ⊢
  exact change_base_error_state app _ _ e herr

/-- C10 witness: the failing 2-token command `:from hax` leaves the state
unchanged. -/
theorem c10_two_token_atomic_witness :
    (App.execute App.new (':' :: toL "from hax")).1 = App.new :=
  c10_two_token_atomic App.new (toL "from hax") (toL "No type hax")
    (by decide) (by decide) (by decide) (by decide)
